import Mathlib

/-!
Verification of the ortholog filtering pipeline (filter_orthologs.py).

This file gives a shallow embedding of the pure computational core of the
pipeline and proves (or refutes) the frozen specification claims about it:

* the codon-aware alignment trimmer, embedding the scan over codon columns,
  the Python slice semantics of taking a sub-alignment, and the retention
  percentage computation;
* the retention filter and trim-statistics report;
* the per-genome concatemer builder with its keyed write handles;
* the COG conflict resolver (grouping of COG issues and the transfer rewrite).

Machine reals (Python floats) are modelled as exact rationals; file paths and
FASTA headers are strings; a sequence is its list of characters.  Fallible
code paths (assertions, KeyError / IndexError / ZeroDivisionError) are
modelled with the Except monad.
-/

namespace FilterOrthologs

/-! ### Codon-aware trimmer: embedding of the body of the trim function -/

/-- A DNA sequence inside an alignment: the list of its characters. -/
abbrev DnaSeq := List Char

/-- The three characters of a sequence starting at column index i
(the slice seq[i : i+3] in the source). -/
def codonAt (s : DnaSeq) (i : Nat) : DnaSeq := (s.drop i).take 3

/-- Whether a codon (or any character list) contains the gap character. -/
def hasGap (c : DnaSeq) : Bool := c.contains '-'

/-- Codon purity for one sequence at a column index: the codon may not mix
gaps and letters, i.e. it either has no gap or is the all-gap codon. -/
def codonPure (s : DnaSeq) (i : Nat) : Bool :=
  !(hasGap (codonAt s i)) || decide (codonAt s i = ['-', '-', '-'])

/-- A codon position k (columns 3k..3k+2) is full iff no sequence of the
alignment has a gap anywhere in that triplet.  This matches the source,
which joins the triplets of all sequences and looks for a gap character. -/
def fullAt (seqs : List DnaSeq) (k : Nat) : Bool :=
  seqs.all (fun s => !(hasGap (codonAt s (3 * k))))

/-- One step of the source's scan over codon positions: on a full codon it
sets the first marker if unset, otherwise it moves the end marker just past
the current codon; on a gapped codon the state is unchanged. -/
def scanStep (seqs : List DnaSeq) (st : Option Nat × Option Nat) (k : Nat) :
    Option Nat × Option Nat :=
  if fullAt seqs k then
    match st.1 with
    | none => (some (3 * k), st.2)
    | some i => (some i, some (3 * k + 3))
  else st

/-- The scan over all codon positions, producing the optional column index of
the first full codon and the optional column index just past the last full
codon, exactly as the loop in the source leaves its two variables. -/
def scanCodons (seqs : List DnaSeq) (numCodons : Nat) : Option Nat × Option Nat :=
  (List.range numCodons).foldl (scanStep seqs) (none, none)

/-- Python slice semantics seq[a : b] for optional non-negative bounds:
a missing lower bound means 0, a missing upper bound means the length, and
both bounds clamp at the length. -/
def pySlice (s : DnaSeq) (a b : Option Nat) : DnaSeq :=
  (s.take (b.getD s.length)).drop (a.getD 0)

/-- The tuple returned by the trim function: the trimmed sequences (the
written alignment), the original length, the trimmed length and the retained
percentage. -/
structure TrimResult where
  seqs : List DnaSeq
  originalLength : Nat
  trimmedLength : Nat
  retainedPct : ℚ
deriving DecidableEq, Repr

/-- Embedding of the trim function.  The error branches model, in source
order: reading an empty alignment, sequences of unequal length (both
rejected by the alignment reader), the length assertion, the codon purity
assertion, the trimmed length assertion, and the division by an original
length of zero.  On success it returns the sub-alignment between the scan
markers under Python slice semantics, with its statistics. -/
def trimAlignment (alignment : List DnaSeq) : Except String TrimResult :=
  match alignment with
  | [] => .error "no records in alignment"
  | s0 :: rest =>
    if !(rest.all (fun s => s.length = s0.length)) then
      .error "sequences of unequal length"
    else if !(s0.length % 3 = 0) then
      .error "Length not a multiple of three"
    else if !((List.range (s0.length / 3)).all
        (fun k => (s0 :: rest).all (fun s => codonPure s (3 * k)))) then
      .error "codon of mixed gaps and letters"
    else
      let first := (scanCodons (s0 :: rest) (s0.length / 3)).1
      let last := (scanCodons (s0 :: rest) (s0.length / 3)).2
      let trimmed := (s0 :: rest).map (fun s => pySlice s first last)
      if !((trimmed.headD []).length % 3 = 0) then
        .error "Trimmed length not a multiple of three"
      else if s0.length = 0 then
        .error "ZeroDivisionError"
      else
        .ok ⟨trimmed, s0.length, (trimmed.headD []).length,
          ((trimmed.headD []).length : ℚ) / (s0.length : ℚ) * 100⟩

/-- The codon positions of an alignment that are full, in scan order. -/
def fullCodons (seqs : List DnaSeq) (n : Nat) : List Nat :=
  (List.range n).filter (fullAt seqs)

/-! ### Retention filter and statistics report -/

/-- A trim tuple as collected from the parallel trim stage: trimmed file
path, original length, trimmed length, retained percentage. -/
structure TrimTuple where
  path : String
  originalLength : Nat
  trimmedLength : Nat
  pct : ℚ
deriving DecidableEq, Repr

/-- The tuples whose retained percentage reaches the threshold; the source
keeps exactly the tuples with threshold less or equal the percentage. -/
def retainedOf (tpls : List TrimTuple) (threshold : ℤ) : List TrimTuple :=
  tpls.filter (fun t => decide ((threshold : ℚ) ≤ t.pct))

/-- The list of retained trimmed-alignment paths as returned by the trim
stage: the paths of the retained tuples, sorted. -/
def trimAlignmentsResult (tpls : List TrimTuple) (threshold : ℤ) : List String :=
  ((retainedOf tpls threshold).map (fun t => t.path)).mergeSort
    (fun a b => decide (a ≤ b))

/-- The detail rows of the statistics report before rendering: all trim
tuples sorted ascending by retained percentage (a stable sort on that key,
as in the source). -/
def statsRows (tpls : List TrimTuple) : List TrimTuple :=
  tpls.mergeSort (fun a b => decide (a.pct ≤ b.pct))

/-- Rendering a percentage to two decimal places, modelled as the integer
number of hundredths closest to the value. -/
def round2 (q : ℚ) : ℤ := round (q * 100)

/-- One rendered detail row of the report: file path, original length,
trimmed length, and the percentage rendered to two decimal places. -/
def renderRow (t : TrimTuple) : String × Nat × Nat × ℤ :=
  (t.path, t.originalLength, t.trimmedLength, round2 t.pct)

/-- The rendered detail rows of the statistics report. -/
def statsReportRows (tpls : List TrimTuple) : List (String × Nat × Nat × ℤ) :=
  (statsRows tpls).map renderRow

/-- The mean retained percentage written to the report: the sum of the
percentages of all trim tuples divided by their count. -/
def statsMean (tpls : List TrimTuple) : ℚ :=
  ((tpls.map (fun t => t.pct)).sum) / (tpls.length : ℚ)

/-- The count of orthologs filtered out by the threshold, as written to the
report: all tuples minus the retained ones. -/
def statsFilteredCount (tpls : List TrimTuple) (threshold : ℤ) : Nat :=
  tpls.length - (retainedOf tpls threshold).length

/-! ### Per-genome concatemer builder -/

/-- A FASTA record of a trimmed ortholog file: header id and sequence. -/
structure FastaRecord where
  id : String
  seq : String
deriving DecidableEq, Repr

/-- The genome identifier of a record: the first pipe-delimited field of its
header id. -/
def genomeOf (r : FastaRecord) : String :=
  ⟨r.id.data.takeWhile (fun c => c ≠ '|')⟩

/-- The initial FASTA header written to a genome's concatemer file. -/
def concatemerHeader (g : String) : String :=
  "> " ++ g ++ "|trimmed concatemer\n"

/-- The open write handles after writing the headers: one handle per genome
identifier, in input order, each holding its header line. -/
def initHandles (genomeIds : List String) : List (String × String) :=
  genomeIds.map (fun g => (g, concatemerHeader g))

/-- Append a line to the handle of a genome id in the keyed handle list;
none models the KeyError raised when the id has no handle. -/
def updateHandle : List (String × String) → String → String → Option (List (String × String))
  | [], _, _ => none
  | (g, c) :: rest, gid, line =>
    if g = gid then some ((g, c ++ line) :: rest)
    else match updateHandle rest gid line with
         | some rest2 => some ((g, c) :: rest2)
         | none => none

/-- Write one record's sequence (and a newline) to the handle of its genome
id; a missing handle is the fatal KeyError of the source. -/
def appendRecord (handles : List (String × String)) (r : FastaRecord) :
    Except String (List (String × String)) :=
  match updateHandle handles (genomeOf r) (r.seq ++ "\n") with
  | some h => .ok h
  | none => .error ("KeyError: " ++ genomeOf r)

/-- Process one trimmed ortholog file: append every record in file order. -/
def appendSico (handles : List (String × String)) (sico : List FastaRecord) :
    Except String (List (String × String)) :=
  sico.foldlM appendRecord handles

/-- Embedding of the concatemer builder: open one handle per genome id with
its header, then loop over the trimmed ortholog files appending each
sequence to the handle of its genome; the final contents are returned. -/
def concatemerPerGenome (genomeIds : List String) (sicos : List (List FastaRecord)) :
    Except String (List (String × String)) :=
  sicos.foldlM appendSico (initHandles genomeIds)

/-- Concatenation of a list of strings (specification-side helper). -/
def joinAll : List String → String
  | [] => ""
  | s :: rest => s ++ joinAll rest

/-- The sequences a genome receives from a list of records, in order. -/
def contributions (records : List FastaRecord) (g : String) : List String :=
  (records.filter (fun r => decide (genomeOf r = g))).map (fun r => r.seq)

/-- The expected final content of a genome's concatemer file: the header
followed by one line per contributing record, in order. -/
def expectedContent (records : List FastaRecord) (g : String) : String :=
  concatemerHeader g ++ joinAll ((contributions records g).map (fun s => s ++ "\n"))

/-- The expected final handle list for a record list. -/
def expectedHandles (genomeIds : List String) (records : List FastaRecord) :
    List (String × String) :=
  genomeIds.map (fun g => (g, expectedContent records g))

/-! ### COG conflict resolver -/

/-- A cluster member is represented by its pipe-split header fields; its COG
annotation is field number 3, as indexed by the source. -/
def annOf (fields : List String) : String := fields.getD 3 ""

/-- The loop of the COG grouping function over one cluster: collect the
distinct non-sentinel annotations in first-seen order, and record whether
the sentinel for an unassigned COG was seen. -/
def collectCogs : List (List String) → List String → Bool → List String × Bool
  | [], cogs, unassigned => (cogs, unassigned)
  | m :: rest, cogs, unassigned =>
    if annOf m ∈ cogs then collectCogs rest cogs unassigned
    else if annOf m = "None" then collectCogs rest cogs true
    else collectCogs rest (cogs ++ [annOf m]) unassigned

/-- The distinct COGs of a cluster and whether an unassigned COG was found. -/
def clusterCogs (cluster : List (List String)) : List String × Bool :=
  collectCogs cluster [] false

/-- Rewrite one member during COG transfer: the source indexes field 3 (an
IndexError on a short header), asserts the annotation is the agreed COG or
the sentinel, and overwrites the field with the agreed COG. -/
def rewriteMember (cog : String) (m : List String) : Except String (List String) :=
  if 3 < m.length then
    if annOf m = cog ∨ annOf m = "None" then .ok (m.set 3 cog)
    else .error ("COG should be either " ++ cog ++ " or None, but was " ++ annOf m)
  else .error "IndexError"

/-- Rewrite a whole cluster during COG transfer, stopping at the first
failing member as the source's assertion does. -/
def rewriteCluster (cog : String) : List (List String) → Except String (List (List String))
  | [] => .ok []
  | m :: rest => do
    let m2 ← rewriteMember cog m
    let rest2 ← rewriteCluster cog rest
    return m2 :: rest2

/-- Embedding of the COG grouping function over a list of named clusters:
conflicted clusters (two or more distinct COGs) with their COG lists,
transferable clusters (exactly one distinct COG and an unassigned member)
with their agreed COG, and clusters with no COG at all, in input order. -/
def groupCogIssues : List (String × List (List String)) →
    List (String × List String) × List (String × String) × List String
  | [] => ([], [], [])
  | (name, cluster) :: rest =>
    let r := groupCogIssues rest
    let cu := clusterCogs cluster
    if cu.1.length = 0 then (r.1, r.2.1, name :: r.2.2)
    else if cu.1.length = 1 then
      (r.1, (if cu.2 then (name, cu.1.headD "") :: r.2.1 else r.2.1), r.2.2)
    else ((name, cu.1) :: r.1, r.2.1, r.2.2)

/-- The cluster names surviving COG-based filtering: every input name that is
not a key of the conflicted clusters. -/
def cogBasedFiltering (clusters : List (String × List (List String))) : List String :=
  (clusters.map (fun c => c.1)).filter
    (fun n => !((groupCogIssues clusters).1.any (fun p => p.1 == n)))

/-! ### Lemmas and claim theorems -/

lemma foldl_scanStep_some (seqs : List DnaSeq) (ks : List Nat) (i : Nat) (b : Option Nat) :
    ks.foldl (scanStep seqs) (some i, b)
      = (some i, (((ks.filter (fullAt seqs)).getLast?).map (fun k => 3 * k + 3)).or b) := by
  induction ks generalizing b with
  | nil => simp
  | cons k ks ih =>
    rw [List.foldl_cons, List.filter_cons]
    by_cases h : fullAt seqs k
    · rw [if_pos h]
      have hs : scanStep seqs (some i, b) k = (some i, some (3 * k + 3)) := by
        simp [scanStep, h]
      rw [hs, ih]
      cases hl : ks.filter (fullAt seqs) with
      | nil => simp
      | cons a l =>
        have : (a :: l).getLast?.isSome := by
          cases l with
          | nil => rfl
          | cons x xs => rw [List.getLast?_cons_cons]; exact List.getLast?_isSome.mpr (by simp)
        obtain ⟨x, hx⟩ := Option.isSome_iff_exists.mp this
        simp [hx]
    · rw [if_neg h]
      have hs : scanStep seqs (some i, b) k = (some i, b) := by
        simp [scanStep, h]
      rw [hs, ih]

lemma scanCodons_eq (seqs : List DnaSeq) (n : Nat) :
    scanCodons seqs n
      = match fullCodons seqs n with
        | [] => (none, none)
        | k :: l => (some (3 * k), (l.getLast?).map (fun k2 => 3 * k2 + 3)) := by
  unfold scanCodons fullCodons
  generalize List.range n = ks
  induction ks with
  | nil => simp
  | cons k ks ih =>
    rw [List.foldl_cons, List.filter_cons]
    by_cases h : fullAt seqs k
    · rw [if_pos h]
      have hs : scanStep seqs (none, none) k = (some (3 * k), none) := by
        simp [scanStep, h]
      rw [hs, foldl_scanStep_some]
      simp
    · rw [if_neg h]
      have hs : scanStep seqs (none, none) k = (none, none) := by
        simp [scanStep, h]
      rw [hs]
      exact ih

lemma scanCodons_of_cons {seqs : List DnaSeq} {n k : Nat} {l : List Nat}
    (h : fullCodons seqs n = k :: l) :
    scanCodons seqs n = (some (3 * k), (l.getLast?).map (fun k2 => 3 * k2 + 3)) := by
  rw [scanCodons_eq, h]

lemma scanCodons_of_nil {seqs : List DnaSeq} {n : Nat}
    (h : fullCodons seqs n = []) :
    scanCodons seqs n = (none, none) := by
  rw [scanCodons_eq, h]

lemma pySlice_length_le (s : DnaSeq) (a b : Option Nat) :
    (pySlice s a b).length ≤ s.length := by
  simp [pySlice]

lemma trimAlignment_ok_inv {al : List DnaSeq} {r : TrimResult}
    (h : trimAlignment al = .ok r) :
    ∃ s0 rest, al = s0 :: rest ∧
      (∀ s ∈ al, s.length = s0.length) ∧
      s0.length % 3 = 0 ∧ s0.length ≠ 0 ∧
      r.originalLength = s0.length ∧
      r.seqs = al.map (fun s => pySlice s (scanCodons al (s0.length / 3)).1
                                          (scanCodons al (s0.length / 3)).2) ∧
      r.trimmedLength = (r.seqs.headD []).length ∧
      r.trimmedLength % 3 = 0 ∧
      r.retainedPct = (r.trimmedLength : ℚ) / (r.originalLength : ℚ) * 100 := by
  match al with
  | [] => simp [trimAlignment] at h
  | s0 :: rest =>
    refine ⟨s0, rest, rfl, ?_⟩
    simp only [trimAlignment] at h
    split_ifs at h with h1 h2 h3 h4 h5
    rw [Except.ok.injEq] at h
    subst h
    have hrect : ∀ s ∈ s0 :: rest, s.length = s0.length := by
      intro s hs
      rcases List.mem_cons.mp hs with hh | hh
      · rw [hh]
      · have h1x : rest.all (fun s => decide (s.length = s0.length)) = true := by
          simpa using h1
        simpa using List.all_eq_true.mp h1x s hh
    have hlen3 : s0.length % 3 = 0 := by simpa using h2
    have htl3 := by simpa using h4
    exact ⟨hrect, hlen3, h5, rfl, rfl, rfl, htl3, rfl⟩

lemma fullCodons_head {seqs : List DnaSeq} {n : Nat}
    (h0 : fullAt seqs 0 = true) (hn : 0 < n) :
    ∃ t, fullCodons seqs n = 0 :: t := by
  obtain ⟨m, rfl⟩ : ∃ m, n = m + 1 := ⟨n - 1, by omega⟩
  rw [fullCodons, List.range_succ_eq_map, List.filter_cons, if_pos h0]
  exact ⟨_, rfl⟩

lemma fullCodons_getLast {seqs : List DnaSeq} {n : Nat}
    (hn : 0 < n) (hl : fullAt seqs (n - 1) = true) :
    (fullCodons seqs n).getLast? = some (n - 1) := by
  obtain ⟨m, rfl⟩ : ∃ m, n = m + 1 := ⟨n - 1, by omega⟩
  rw [fullCodons, List.range_succ, List.filter_append]
  have : List.filter (fullAt seqs) [m] = [m] := by
    simp only [List.filter_cons, List.filter_nil]
    rw [if_pos (by simpa using hl)]
  rw [this, List.getLast?_concat]
  simp

lemma pySlice_zero_none (s : DnaSeq) : pySlice s (some 0) none = s := by
  simp [pySlice]

lemma pySlice_zero_len {s : DnaSeq} {L : Nat} (h : s.length = L) :
    pySlice s (some 0) (some L) = s := by
  simp [pySlice, ← h]

/-- Claim C5: every result accepted by the trimmer has trimmed length a
multiple of three, trimmed length at most the original length, and retained
percentage equal to trimmed over original times one hundred. -/
theorem trim_result_invariants (al : List DnaSeq) (r : TrimResult)
    (h : trimAlignment al = .ok r) :
    r.trimmedLength % 3 = 0 ∧ r.trimmedLength ≤ r.originalLength ∧
    r.retainedPct = (r.trimmedLength : ℚ) / (r.originalLength : ℚ) * 100 := by
  obtain ⟨s0, rest, hal, hrect, hlen3, hne, horig, hseqs, htl, htl3, hpct⟩ :=
    trimAlignment_ok_inv h
  refine ⟨htl3, ?_, hpct⟩
  rw [htl, hseqs, hal, horig]
  simpa using pySlice_length_le s0 _ _

theorem trim_result_invariants_witness :
    (⟨[['A','A','A','-','-','-'], ['A','A','A','G','G','G']], 6, 6,
      ((6:ℕ):ℚ) / ((6:ℕ):ℚ) * 100⟩ : TrimResult).trimmedLength % 3 = 0 ∧
    (⟨[['A','A','A','-','-','-'], ['A','A','A','G','G','G']], 6, 6,
      ((6:ℕ):ℚ) / ((6:ℕ):ℚ) * 100⟩ : TrimResult).trimmedLength ≤
    (⟨[['A','A','A','-','-','-'], ['A','A','A','G','G','G']], 6, 6,
      ((6:ℕ):ℚ) / ((6:ℕ):ℚ) * 100⟩ : TrimResult).originalLength ∧
    (⟨[['A','A','A','-','-','-'], ['A','A','A','G','G','G']], 6, 6,
      ((6:ℕ):ℚ) / ((6:ℕ):ℚ) * 100⟩ : TrimResult).retainedPct =
      ((6:ℕ):ℚ) / ((6:ℕ):ℚ) * 100 :=
  trim_result_invariants [['A','A','A','-','-','-'], ['A','A','A','G','G','G']] _ rfl

/-- Claim C6: trimming an alignment whose first and last codon positions are
already full returns the alignment unchanged, at full length and one hundred
percent retained. -/
theorem trim_idempotent (al : List DnaSeq) (r : TrimResult)
    (h : trimAlignment al = .ok r)
    (hfirst : fullAt al 0 = true)
    (hlast : fullAt al (r.originalLength / 3 - 1) = true) :
    r.seqs = al ∧ r.trimmedLength = r.originalLength ∧ r.retainedPct = 100 := by
  obtain ⟨s0, rest, hal, hrect, hlen3, hne, horig, hseqs, htl, htl3, hpct⟩ :=
    trimAlignment_ok_inv h
  rw [horig] at hlast
  have hn : 0 < s0.length / 3 := by omega
  obtain ⟨t, hfc⟩ := fullCodons_head hfirst hn
  have hgl := fullCodons_getLast hn hlast
  rw [hfc] at hgl
  have hseqs_id : r.seqs = al := by
    cases t with
    | nil =>
      have hscan2 : scanCodons al (s0.length / 3) = (some 0, none) := by
        rw [scanCodons_of_cons hfc]
        simp
      rw [hseqs, hscan2]
      nth_rewrite 2 [← List.map_id al]
      exact List.map_congr_left (fun s hs => pySlice_zero_none s)
    | cons a t2 =>
      rw [List.getLast?_cons_cons] at hgl
      have h3n : 3 * (s0.length / 3 - 1) + 3 = s0.length := by omega
      have hscan2 : scanCodons al (s0.length / 3) = (some 0, some s0.length) := by
        rw [scanCodons_of_cons hfc, hgl]
        simp [h3n]
      rw [hseqs, hscan2]
      nth_rewrite 2 [← List.map_id al]
      exact List.map_congr_left (fun s hs => pySlice_zero_len (by rw [hrect s hs]))
  have htl_eq : r.trimmedLength = r.originalLength := by
    rw [htl, hseqs_id, hal, horig]
    rfl
  refine ⟨hseqs_id, htl_eq, ?_⟩
  rw [hpct, htl_eq, horig]
  have hc : ((s0.length : ℚ)) ≠ 0 := Nat.cast_ne_zero.mpr hne
  rw [div_self hc, one_mul]

theorem trim_idempotent_witness :
    (⟨[['A','A','A'], ['G','G','G']], 3, 3, ((3:ℕ):ℚ) / ((3:ℕ):ℚ) * 100⟩ :
        TrimResult).seqs = [['A','A','A'], ['G','G','G']] ∧
    (⟨[['A','A','A'], ['G','G','G']], 3, 3, ((3:ℕ):ℚ) / ((3:ℕ):ℚ) * 100⟩ :
        TrimResult).trimmedLength =
    (⟨[['A','A','A'], ['G','G','G']], 3, 3, ((3:ℕ):ℚ) / ((3:ℕ):ℚ) * 100⟩ :
        TrimResult).originalLength ∧
    (⟨[['A','A','A'], ['G','G','G']], 3, 3, ((3:ℕ):ℚ) / ((3:ℕ):ℚ) * 100⟩ :
        TrimResult).retainedPct = 100 :=
  trim_idempotent [['A','A','A'], ['G','G','G']] _ rfl rfl rfl

/-- Claim C1: an alignment with no full codon position is not trimmed to an
empty span; the code returns the entire alignment with one hundred percent
retained, because both scan markers stay unset and the slice with two unset
bounds is the whole alignment. -/
theorem trim_no_full_codon_keeps_all :
    fullCodons [['-','-','-'], ['A','A','A']] 1 = [] ∧
    trimAlignment [['-','-','-'], ['A','A','A']]
      = .ok ⟨[['-','-','-'], ['A','A','A']], 3, 3, 100⟩ := by
  refine ⟨rfl, ?_⟩
  have h : trimAlignment [['-','-','-'], ['A','A','A']]
      = .ok ⟨[['-','-','-'], ['A','A','A']], 3, 3, ((3:ℕ):ℚ) / ((3:ℕ):ℚ) * 100⟩ := rfl
  rw [h]
  simp only [Except.ok.injEq, TrimResult.mk.injEq]
  norm_num

/-- Claim C2: an alignment with exactly one full codon position at index 0 is
not trimmed to the single codon column range; the end marker stays unset, so
the code keeps everything from the full codon to the end of the alignment,
trimmed length six instead of three. -/
theorem trim_one_full_codon_keeps_tail :
    fullCodons [['A','A','A','-','-','-'], ['A','A','A','G','G','G']] 2 = [0] ∧
    trimAlignment [['A','A','A','-','-','-'], ['A','A','A','G','G','G']]
      = .ok ⟨[['A','A','A','-','-','-'], ['A','A','A','G','G','G']], 6, 6, 100⟩ := by
  refine ⟨rfl, ?_⟩
  have h : trimAlignment [['A','A','A','-','-','-'], ['A','A','A','G','G','G']]
      = .ok ⟨[['A','A','A','-','-','-'], ['A','A','A','G','G','G']], 6, 6,
          ((6:ℕ):ℚ) / ((6:ℕ):ℚ) * 100⟩ := rfl
  rw [h]
  simp only [Except.ok.injEq, TrimResult.mk.injEq]
  norm_num



lemma joinAll_append (l1 l2 : List String) :
    joinAll (l1 ++ l2) = joinAll l1 ++ joinAll l2 := by
  induction l1 with
  | nil => simp [joinAll]
  | cons s rest ih => simp [joinAll, ih, String.append_assoc]

lemma except_bind_error {α β : Type} (e : String) (f : α → Except String β) :
    (Except.error e >>= f) = Except.error e := rfl

lemma except_bind_ok {α β : Type} (x : α) (f : α → Except String β) :
    (Except.ok x >>= f) = f x := rfl

lemma except_isOk_error {α : Type} (e : String) :
    (Except.error e : Except String α).isOk = false := rfl

lemma except_isOk_ok {α : Type} (x : α) :
    (Except.ok x : Except String α).isOk = true := rfl

lemma updateHandle_none_iff (h : List (String × String)) (gid line : String) :
    updateHandle h gid line = none ↔ gid ∉ h.map Prod.fst := by
  induction h with
  | nil => simp [updateHandle]
  | cons p rest ih =>
    obtain ⟨g, c⟩ := p
    simp only [updateHandle, List.map_cons, List.mem_cons]
    by_cases hg : g = gid
    · simp [hg]
    · rw [if_neg hg]
      cases hu : updateHandle rest gid line with
      | some r2 => simp [hu] at ih ⊢; tauto
      | none => simp [hu] at ih ⊢; tauto

lemma updateHandle_keys {h h2 : List (String × String)} {gid line : String}
    (hu : updateHandle h gid line = some h2) :
    h2.map Prod.fst = h.map Prod.fst := by
  induction h generalizing h2 with
  | nil => simp [updateHandle] at hu
  | cons p rest ih =>
    obtain ⟨g, c⟩ := p
    simp only [updateHandle] at hu
    by_cases hg : g = gid
    · rw [if_pos hg] at hu
      obtain rfl := Option.some_inj.mp hu
      simp
    · rw [if_neg hg] at hu
      cases hrec : updateHandle rest gid line with
      | some r2 =>
        rw [hrec] at hu
        obtain rfl := Option.some_inj.mp hu
        simp [ih hrec]
      | none => rw [hrec] at hu; exact absurd hu (by simp)

lemma appendRecord_ok_inv {h hmid : List (String × String)} {r : FastaRecord}
    (ha : appendRecord h r = .ok hmid) :
    updateHandle h (genomeOf r) (r.seq ++ "\n") = some hmid := by
  simp only [appendRecord] at ha
  cases hu : updateHandle h (genomeOf r) (r.seq ++ "\n") with
  | some hx => rw [hu] at ha; obtain rfl := Except.ok.inj ha; rfl
  | none => rw [hu] at ha; exact absurd ha (by simp)

lemma appendRecord_error_inv {h : List (String × String)} {r : FastaRecord} {e : String}
    (ha : appendRecord h r = .error e) :
    genomeOf r ∉ h.map Prod.fst := by
  simp only [appendRecord] at ha
  cases hu : updateHandle h (genomeOf r) (r.seq ++ "\n") with
  | some hx => rw [hu] at ha; exact absurd ha (by simp)
  | none => exact (updateHandle_none_iff h _ _).mp hu

lemma appendSico_nil (h : List (String × String)) : appendSico h [] = .ok h := rfl

lemma appendSico_cons (h : List (String × String)) (r : FastaRecord)
    (rs : List FastaRecord) :
    appendSico h (r :: rs) = (appendRecord h r) >>= fun h2 => appendSico h2 rs := rfl

lemma appendSico_keys {h h2 : List (String × String)} {sico : List FastaRecord}
    (hs : appendSico h sico = .ok h2) :
    h2.map Prod.fst = h.map Prod.fst := by
  induction sico generalizing h with
  | nil =>
    rw [appendSico_nil] at hs
    obtain rfl := Except.ok.inj hs
    rfl
  | cons r rs ih =>
    rw [appendSico_cons] at hs
    cases ha : appendRecord h r with
    | error e => rw [ha, except_bind_error] at hs; exact absurd hs (by simp)
    | ok hmid =>
      rw [ha, except_bind_ok] at hs
      rw [ih hs]
      exact updateHandle_keys (appendRecord_ok_inv ha)

lemma appendSico_ok_iff (h : List (String × String)) (sico : List FastaRecord) :
    (appendSico h sico).isOk = true ↔ ∀ r ∈ sico, genomeOf r ∈ h.map Prod.fst := by
  induction sico generalizing h with
  | nil => simp [appendSico_nil, except_isOk_ok]
  | cons r rs ih =>
    rw [appendSico_cons]
    cases ha : appendRecord h r with
    | error e =>
      rw [except_bind_error, except_isOk_error]
      have hnone := appendRecord_error_inv ha
      constructor
      · intro hfalse; exact absurd hfalse (by simp)
      · intro hmem; exact absurd (hmem r (by simp)) hnone
    | ok hmid =>
      have hkeys := updateHandle_keys (appendRecord_ok_inv ha)
      have hmem : genomeOf r ∈ h.map Prod.fst := by
        by_contra hc
        have := (updateHandle_none_iff h (genomeOf r) (r.seq ++ "\n")).mpr hc
        rw [appendRecord_ok_inv ha] at this
        exact absurd this (by simp)
      rw [except_bind_ok, ih hmid, hkeys]
      constructor
      · intro hall r2 hr2
        rcases List.mem_cons.mp hr2 with rfl | hr2
        · exact hmem
        · exact hall r2 hr2
      · intro hall r2 hr2
        exact hall r2 (List.mem_cons_of_mem _ hr2)

lemma concatemer_fold_ok_iff (h : List (String × String))
    (sicos : List (List FastaRecord)) :
    (sicos.foldlM appendSico h).isOk = true
      ↔ ∀ sico ∈ sicos, ∀ r ∈ sico, genomeOf r ∈ h.map Prod.fst := by
  induction sicos generalizing h with
  | nil => simp [except_isOk_ok, pure, Except.pure]
  | cons s ss ih =>
    rw [List.foldlM_cons]
    cases hs : appendSico h s with
    | error e =>
      rw [except_bind_error, except_isOk_error]
      have : ¬ ∀ r ∈ s, genomeOf r ∈ h.map Prod.fst := by
        intro hall
        have h2 := (appendSico_ok_iff h s).mpr hall
        rw [hs, except_isOk_error] at h2
        exact absurd h2 (by simp)
      constructor
      · intro hfalse; exact absurd hfalse (by simp)
      · intro hall; exact absurd (hall s (by simp)) this
    | ok hmid =>
      have hkeys := appendSico_keys hs
      have hok : ∀ r ∈ s, genomeOf r ∈ h.map Prod.fst :=
        (appendSico_ok_iff h s).mp (by simp [hs, except_isOk_ok])
      rw [except_bind_ok, ih hmid, hkeys]
      constructor
      · intro hall s2 hs2
        rcases List.mem_cons.mp hs2 with rfl | hs2
        · exact hok
        · exact hall s2 hs2
      · intro hall s2 hs2
        exact hall s2 (List.mem_cons_of_mem _ hs2)

lemma initHandles_keys (genomeIds : List String) :
    (initHandles genomeIds).map Prod.fst = genomeIds := by
  simp [initHandles, Function.comp_def]

/-- Claim C9: the concatemer builder succeeds exactly when every sequence in
every retained trimmed file has a genome identifier among the supplied
genome ids; a record whose genome id is not listed makes the builder fail
with a lookup error instead of being skipped, while a listed genome absent
from the files is tolerated. -/
theorem concatemer_keyerror_iff (genomeIds : List String)
    (sicos : List (List FastaRecord)) :
    (concatemerPerGenome genomeIds sicos).isOk = true
      ↔ ∀ sico ∈ sicos, ∀ r ∈ sico, genomeOf r ∈ genomeIds := by
  rw [concatemerPerGenome, concatemer_fold_ok_iff, initHandles_keys]

lemma expectedContent_nil (g : String) :
    expectedContent [] g = concatemerHeader g := by
  simp [expectedContent, contributions, joinAll, String.append_empty]

lemma contributions_append_of_eq {r : FastaRecord} {g : String}
    (h : genomeOf r = g) (recs : List FastaRecord) :
    contributions (recs ++ [r]) g = contributions recs g ++ [r.seq] := by
  simp [contributions, List.filter_append, h]

lemma contributions_append_of_ne {r : FastaRecord} {g : String}
    (h : genomeOf r ≠ g) (recs : List FastaRecord) :
    contributions (recs ++ [r]) g = contributions recs g := by
  simp [contributions, List.filter_append, h]

lemma expectedContent_append_of_eq {r : FastaRecord} {g : String}
    (h : genomeOf r = g) (recs : List FastaRecord) :
    expectedContent (recs ++ [r]) g = expectedContent recs g ++ (r.seq ++ "\n") := by
  rw [expectedContent, expectedContent, contributions_append_of_eq h, List.map_append,
    joinAll_append, ← String.append_assoc]
  simp [joinAll, String.append_empty]

lemma expectedContent_append_of_ne {r : FastaRecord} {g : String}
    (h : genomeOf r ≠ g) (recs : List FastaRecord) :
    expectedContent (recs ++ [r]) g = expectedContent recs g := by
  rw [expectedContent, expectedContent, contributions_append_of_ne h]

lemma updateHandle_expected {gids : List String} (hnd : gids.Nodup) {r : FastaRecord}
    (hmem : genomeOf r ∈ gids) (recs : List FastaRecord) :
    updateHandle (expectedHandles gids recs) (genomeOf r) (r.seq ++ "\n")
      = some (expectedHandles gids (recs ++ [r])) := by
  induction gids with
  | nil => simp at hmem
  | cons g gs ih =>
    rw [List.nodup_cons] at hnd
    simp only [expectedHandles, List.map_cons, updateHandle]
    by_cases hg : g = genomeOf r
    · rw [if_pos hg]
      have hhead : expectedContent recs g ++ (r.seq ++ "\n")
          = expectedContent (recs ++ [r]) g := by
        rw [expectedContent_append_of_eq hg.symm]
      rw [hhead]
      have htail : (gs.map fun g2 => (g2, expectedContent recs g2))
          = gs.map fun g2 => (g2, expectedContent (recs ++ [r]) g2) := by
        refine List.map_congr_left (fun g2 hg2 => ?_)
        have : genomeOf r ≠ g2 := fun hc => hnd.1 (by rw [hg, hc]; exact hg2)
        rw [expectedContent_append_of_ne this]
      rw [htail]
    · rw [if_neg hg]
      have hmem2 : genomeOf r ∈ gs := by
        rcases List.mem_cons.mp hmem with hc | hc
        · exact absurd hc.symm hg
        · exact hc
      have := ih hnd.2 hmem2
      rw [show (expectedHandles gs recs) = (gs.map fun g2 => (g2, expectedContent recs g2))
        from rfl] at this
      rw [this]
      have hhead : expectedContent recs g = expectedContent (recs ++ [r]) g := by
        rw [expectedContent_append_of_ne (fun hc => hg hc.symm)]
      rw [hhead]
      rfl

lemma foldl_appendRecord_expected {gids : List String} (hnd : gids.Nodup)
    (pre post : List FastaRecord)
    (hall : ∀ r ∈ post, genomeOf r ∈ gids) :
    post.foldlM appendRecord (expectedHandles gids pre)
      = .ok (expectedHandles gids (pre ++ post)) := by
  induction post generalizing pre with
  | nil => simp [pure, Except.pure]
  | cons r rs ih =>
    rw [List.foldlM_cons]
    have hstep : appendRecord (expectedHandles gids pre) r
        = .ok (expectedHandles gids (pre ++ [r])) := by
      rw [appendRecord, updateHandle_expected hnd (hall r (by simp)) pre]
    rw [hstep, except_bind_ok]
    have := ih (pre ++ [r]) (fun r2 hr2 => hall r2 (List.mem_cons_of_mem _ hr2))
    rw [this]
    simp

lemma fold_appendSico_expected {gids : List String} (hnd : gids.Nodup)
    (pre : List FastaRecord) (sicos : List (List FastaRecord))
    (hall : ∀ sico ∈ sicos, ∀ r ∈ sico, genomeOf r ∈ gids) :
    sicos.foldlM appendSico (expectedHandles gids pre)
      = .ok (expectedHandles gids (pre ++ sicos.flatten)) := by
  induction sicos generalizing pre with
  | nil => simp [pure, Except.pure]
  | cons s ss ih =>
    rw [List.foldlM_cons]
    have hstep : appendSico (expectedHandles gids pre) s
        = .ok (expectedHandles gids (pre ++ s)) := by
      rw [appendSico, foldl_appendRecord_expected hnd pre s (hall s (by simp))]
    rw [hstep, except_bind_ok]
    have := ih (pre ++ s) (fun s2 hs2 r hr => hall s2 (List.mem_cons_of_mem _ hs2) r hr)
    rw [this, List.flatten_cons, List.append_assoc]

/-- Claim C3 (amended): the concatemer builder emits exactly one entry per
genome identifier, in order, whose content is the header line followed by
one line per contributing trimmed sequence of that genome, in file order;
the FASTA sequence content is therefore the ordered concatenation of the
contributions with no added separators, but it is written as one line per
cluster rather than a single line. -/
theorem concatemer_per_genome_content (gids : List String)
    (sicos : List (List FastaRecord)) (hnd : gids.Nodup)
    (hall : ∀ sico ∈ sicos, ∀ r ∈ sico, genomeOf r ∈ gids) :
    concatemerPerGenome gids sicos
      = .ok (gids.map (fun g => (g, expectedContent sicos.flatten g))) := by
  rw [concatemerPerGenome]
  have hinit : initHandles gids = expectedHandles gids [] := by
    refine List.map_congr_left (fun g hg => ?_)
    rw [expectedContent_nil]
  rw [hinit, fold_appendSico_expected hnd [] sicos hall]
  rfl

theorem concatemer_per_genome_content_witness :
    concatemerPerGenome ["g1", "g2"]
        [[⟨"g1|c|p1|C|x", "AAA"⟩, ⟨"g2|c|p1|C|x", "TTT"⟩], [⟨"g1|c|p2|C|x", "GGG"⟩]]
      = .ok (["g1", "g2"].map (fun g => (g, expectedContent
          ([[⟨"g1|c|p1|C|x", "AAA"⟩, ⟨"g2|c|p1|C|x", "TTT"⟩],
            [⟨"g1|c|p2|C|x", "GGG"⟩]] : List (List FastaRecord)).flatten g))) :=
  concatemer_per_genome_content ["g1", "g2"] _ (by decide) (by decide)

/-- Claim C3 (counterexample): for one genome contributing two retained
clusters the emitted file is the header followed by two sequence lines, not
a single line holding the concatenation. -/
theorem concatemer_not_single_line :
    concatemerPerGenome ["58191"]
        [[⟨"58191|NC_1|YP_1|COG1|core", "AAA"⟩],
         [⟨"58191|NC_1|YP_2|COG2|core", "GGG"⟩]]
      = .ok [("58191", "> 58191|trimmed concatemer\nAAA\nGGG\n")] ∧
    "> 58191|trimmed concatemer\nAAA\nGGG\n"
      ≠ "> 58191|trimmed concatemer\nAAAGGG\n" :=
  ⟨rfl, by decide⟩

lemma collectCogs_mono {l : List (List String)} {cogs : List String} {un : Bool}
    {c : String} (h : c ∈ cogs) : c ∈ (collectCogs l cogs un).1 := by
  induction l generalizing cogs un with
  | nil => exact h
  | cons m rest ih =>
    rw [collectCogs]
    by_cases h1 : annOf m ∈ cogs
    · rw [if_pos h1]; exact ih h
    · rw [if_neg h1]
      by_cases h2 : annOf m = "None"
      · rw [if_pos h2]; exact ih h
      · rw [if_neg h2]; exact ih (List.mem_append_left _ h)

lemma collectCogs_covers {l : List (List String)} {cogs : List String} {un : Bool} :
    ∀ m ∈ l, annOf m = "None" ∨ annOf m ∈ (collectCogs l cogs un).1 := by
  induction l generalizing cogs un with
  | nil => intro m hm; simp at hm
  | cons m0 rest ih =>
    intro m hm
    rw [collectCogs]
    rcases List.mem_cons.mp hm with rfl | hm2
    · by_cases h1 : annOf m ∈ cogs
      · rw [if_pos h1]; exact Or.inr (collectCogs_mono h1)
      · rw [if_neg h1]
        by_cases h2 : annOf m = "None"
        · rw [if_pos h2]; exact Or.inl h2
        · rw [if_neg h2]
          exact Or.inr (collectCogs_mono (List.mem_append_right _ (by simp)))
    · by_cases h1 : annOf m0 ∈ cogs
      · rw [if_pos h1]; exact ih m hm2
      · rw [if_neg h1]
        by_cases h2 : annOf m0 = "None"
        · rw [if_pos h2]; exact ih m hm2
        · rw [if_neg h2]; exact ih m hm2

lemma annOf_set {m : List String} {cog : String} (h : 3 < m.length) :
    annOf (m.set 3 cog) = cog := by
  rw [annOf, List.getD_eq_getElem?_getD, List.getElem?_set_self (by omega)]
  rfl

lemma rewriteMember_ok_inv {cog : String} {m m2 : List String}
    (h : rewriteMember cog m = .ok m2) :
    3 < m.length ∧ (annOf m = cog ∨ annOf m = "None") ∧ m2 = m.set 3 cog := by
  rw [rewriteMember] at h
  split_ifs at h with h1 h2
  exact ⟨h1, h2, (Except.ok.inj h).symm⟩

lemma rewriteCluster_cons (cog : String) (m : List String) (rest : List (List String)) :
    rewriteCluster cog (m :: rest)
      = (rewriteMember cog m) >>= fun m2 =>
        (rewriteCluster cog rest) >>= fun rest2 => pure (m2 :: rest2) := rfl

lemma rewriteCluster_ok {cog : String} (cluster : List (List String))
    (hwf : ∀ m ∈ cluster, 3 < m.length)
    (hann : ∀ m ∈ cluster, annOf m = cog ∨ annOf m = "None") :
    ∃ out, rewriteCluster cog cluster = .ok out ∧ out.length = cluster.length ∧
      ∀ m ∈ out, annOf m = cog := by
  induction cluster with
  | nil => exact ⟨[], rfl, rfl, by simp⟩
  | cons m rest ih =>
    have hm : rewriteMember cog m = .ok (m.set 3 cog) := by
      rw [rewriteMember, if_pos (hwf m (by simp)), if_pos (hann m (by simp))]
    obtain ⟨out, hout, hlen, hanns⟩ :=
      ih (fun x hx => hwf x (List.mem_cons_of_mem _ hx))
         (fun x hx => hann x (List.mem_cons_of_mem _ hx))
    refine ⟨(m.set 3 cog) :: out, ?_, by simp [hlen], ?_⟩
    · rw [rewriteCluster_cons, hm, except_bind_ok, hout, except_bind_ok]
      rfl
    · intro x hx
      rcases List.mem_cons.mp hx with rfl | hx2
      · exact annOf_set (hwf m (by simp))
      · exact hanns x hx2

lemma rewriteCluster_fails {cog : String} (cluster : List (List String))
    (hbad : ∃ m ∈ cluster, annOf m ≠ cog ∧ annOf m ≠ "None") :
    (rewriteCluster cog cluster).isOk = false := by
  induction cluster with
  | nil => obtain ⟨m, hm, _⟩ := hbad; simp at hm
  | cons m0 rest ih =>
    rw [rewriteCluster_cons]
    cases hm : rewriteMember cog m0 with
    | error e => rw [except_bind_error, except_isOk_error]
    | ok m2 =>
      rw [except_bind_ok]
      obtain ⟨x, hx, hbad2⟩ := hbad
      rcases List.mem_cons.mp hx with rfl | hx2
      · obtain ⟨_, hor, _⟩ := rewriteMember_ok_inv hm
        rcases hor with hc | hc
        · exact absurd hc hbad2.1
        · exact absurd hc hbad2.2
      · have hres := ih ⟨x, hx2, hbad2⟩
        cases hr : rewriteCluster cog rest with
        | error e => rw [except_bind_error, except_isOk_error]
        | ok out => rw [hr, except_isOk_ok] at hres; exact absurd hres (by simp)

/-- Claim C4: for a cluster grouped as transferable with agreed COG value,
the rewrite succeeds and leaves every member annotated with that COG; and
any rewrite that meets a member whose annotation is neither the agreed COG
nor the sentinel fails with the fatal assertion instead of recovering. -/
theorem cog_transfer (cluster : List (List String)) (cog : String)
    (hwf : ∀ m ∈ cluster, 3 < m.length)
    (htrans : clusterCogs cluster = ([cog], true)) :
    (∃ out, rewriteCluster cog cluster = .ok out ∧ out.length = cluster.length ∧
      ∀ m ∈ out, annOf m = cog) ∧
    (∀ (cluster2 : List (List String)) (cog2 : String),
      (∃ m ∈ cluster2, annOf m ≠ cog2 ∧ annOf m ≠ "None") →
      (rewriteCluster cog2 cluster2).isOk = false) := by
  have hann : ∀ m ∈ cluster, annOf m = cog ∨ annOf m = "None" := by
    intro m hm
    rcases collectCogs_covers m hm with h | h
    · exact Or.inr h
    · rw [show collectCogs cluster [] false = clusterCogs cluster from rfl, htrans] at h
      rcases List.mem_singleton.mp h with rfl
      exact Or.inl rfl
  exact ⟨rewriteCluster_ok cluster hwf hann,
    fun cluster2 cog2 hbad => rewriteCluster_fails cluster2 hbad⟩

theorem cog_transfer_witness :
    (∃ out, rewriteCluster "COG4948MR"
        [["58191", "NC_010067.1", "YP_001", "COG4948MR", "core"],
         ["58192", "NC_010068.1", "YP_002", "None", "core"]] = .ok out ∧
      out.length = 2 ∧ ∀ m ∈ out, annOf m = "COG4948MR") ∧
    (∀ (cluster2 : List (List String)) (cog2 : String),
      (∃ m ∈ cluster2, annOf m ≠ cog2 ∧ annOf m ≠ "None") →
      (rewriteCluster cog2 cluster2).isOk = false) :=
  cog_transfer
    [["58191", "NC_010067.1", "YP_001", "COG4948MR", "core"],
     ["58192", "NC_010068.1", "YP_002", "None", "core"]]
    "COG4948MR" (by decide) (by decide)

lemma nodup_map_eq {α β : Type} {f : α → β} {l : List α}
    (h : (l.map f).Nodup) {a b : α} (ha : a ∈ l) (hb : b ∈ l) (hf : f a = f b) :
    a = b := by
  induction l with
  | nil => simp at ha
  | cons x rest ih =>
    rw [List.map_cons, List.nodup_cons] at h
    rcases List.mem_cons.mp ha with rfl | ha2
    · rcases List.mem_cons.mp hb with rfl | hb2
      · rfl
      · exact absurd (hf ▸ List.mem_map_of_mem f hb2) h.1
    · rcases List.mem_cons.mp hb with rfl | hb2
      · exact absurd (hf ▸ List.mem_map_of_mem f ha2) h.1
      · exact ih h.2 ha2 hb2

lemma mem_conflict_keys {clusters : List (String × List (List String))} {n : String} :
    (∃ cs, (n, cs) ∈ (groupCogIssues clusters).1)
      ↔ ∃ cl, (n, cl) ∈ clusters ∧ 2 ≤ (clusterCogs cl).1.length := by
  induction clusters with
  | nil => simp [groupCogIssues]
  | cons p rest ih =>
    obtain ⟨name, cluster⟩ := p
    rw [groupCogIssues]
    by_cases h0 : (clusterCogs cluster).1.length = 0
    · rw [if_pos h0]
      rw [ih]
      constructor
      · rintro ⟨cl, hcl, hge⟩
        exact ⟨cl, List.mem_cons_of_mem _ hcl, hge⟩
      · rintro ⟨cl, hcl, hge⟩
        rcases List.mem_cons.mp hcl with heq | hcl2
        · obtain ⟨rfl, rfl⟩ := Prod.mk.injEq .. ▸ heq
          omega
        · exact ⟨cl, hcl2, hge⟩
    · rw [if_neg h0]
      by_cases h1 : (clusterCogs cluster).1.length = 1
      · rw [if_pos h1]
        rw [show ((groupCogIssues rest).1, (if (clusterCogs cluster).2 then
            (name, (clusterCogs cluster).1.headD "") :: (groupCogIssues rest).2.1
            else (groupCogIssues rest).2.1), (groupCogIssues rest).2.2).1
          = (groupCogIssues rest).1 from rfl]
        rw [ih]
        constructor
        · rintro ⟨cl, hcl, hge⟩
          exact ⟨cl, List.mem_cons_of_mem _ hcl, hge⟩
        · rintro ⟨cl, hcl, hge⟩
          rcases List.mem_cons.mp hcl with heq | hcl2
          · obtain ⟨rfl, rfl⟩ := Prod.mk.injEq .. ▸ heq
            omega
          · exact ⟨cl, hcl2, hge⟩
      · rw [if_neg h1]
        constructor
        · rintro ⟨cs, hcs⟩
          rcases List.mem_cons.mp hcs with heq | hcs2
          · obtain ⟨rfl, rfl⟩ := Prod.mk.injEq .. ▸ heq
            exact ⟨cluster, by simp, by omega⟩
          · obtain ⟨cl, hcl, hge⟩ := ih.mp ⟨cs, hcs2⟩
            exact ⟨cl, List.mem_cons_of_mem _ hcl, hge⟩
        · rintro ⟨cl, hcl, hge⟩
          rcases List.mem_cons.mp hcl with heq | hcl2
          · obtain ⟨rfl, rfl⟩ := Prod.mk.injEq .. ▸ heq
            exact ⟨(clusterCogs cl).1, by simp⟩
          · obtain ⟨cs, hcs⟩ := ih.mpr ⟨cl, hcl2, hge⟩
            exact ⟨cs, List.mem_cons_of_mem _ hcs⟩

/-- Claim C8: a cluster with two or more distinct COG annotations is removed
from the surviving set and recorded among the conflicted clusters, while a
cluster with fewer than two distinct annotations survives the filtering. -/
theorem conflict_filtering (clusters : List (String × List (List String)))
    (hnd : (clusters.map Prod.fst).Nodup)
    (name : String) (cluster : List (List String))
    (hmem : (name, cluster) ∈ clusters) :
    (2 ≤ (clusterCogs cluster).1.length →
      name ∉ cogBasedFiltering clusters ∧
      ∃ cs, (name, cs) ∈ (groupCogIssues clusters).1) ∧
    ((clusterCogs cluster).1.length < 2 → name ∈ cogBasedFiltering clusters) := by
  have hany : ((groupCogIssues clusters).1.any (fun p => p.1 == name)) = true
      ↔ ∃ cs, (name, cs) ∈ (groupCogIssues clusters).1 := by
    rw [List.any_eq_true]
    constructor
    · rintro ⟨p, hp, hbeq⟩
      obtain ⟨g, cs⟩ := p
      obtain rfl : g = name := by simpa using hbeq
      exact ⟨cs, hp⟩
    · rintro ⟨cs, hcs⟩
      exact ⟨(name, cs), hcs, by simp⟩
  constructor
  · intro hge
    have hconf : ∃ cs, (name, cs) ∈ (groupCogIssues clusters).1 :=
      mem_conflict_keys.mpr ⟨cluster, hmem, hge⟩
    refine ⟨?_, hconf⟩
    intro hin
    rw [cogBasedFiltering, List.mem_filter] at hin
    have hfalse := hin.2
    rw [Bool.not_eq_eq_eq_not, Bool.not_true] at hfalse
    rw [hfalse] at hany
    exact absurd (hany.mpr hconf) (by simp)
  · intro hlt
    rw [cogBasedFiltering, List.mem_filter]
    refine ⟨List.mem_map_of_mem Prod.fst hmem, ?_⟩
    rw [Bool.not_eq_eq_eq_not, Bool.not_true, ← Bool.not_eq_true, hany]
    rintro ⟨cs, hcs⟩
    obtain ⟨cl2, hcl2, hge2⟩ := mem_conflict_keys.mp ⟨cs, hcs⟩
    have hpair : (name, cl2) = (name, cluster) :=
      nodup_map_eq hnd hcl2 hmem rfl
    have heq2 : cl2 = cluster := congrArg Prod.snd hpair
    rw [heq2] at hge2
    omega

theorem conflict_filtering_witness :
    (2 ≤ (clusterCogs [["a", "b", "c", "COG1", "x"], ["a", "b", "c", "COG2", "x"]]).1.length →
      "f1" ∉ cogBasedFiltering
        [("f1", [["a", "b", "c", "COG1", "x"], ["a", "b", "c", "COG2", "x"]]),
         ("f2", [["a", "b", "c", "COG1", "x"]])] ∧
      ∃ cs, ("f1", cs) ∈ (groupCogIssues
        [("f1", [["a", "b", "c", "COG1", "x"], ["a", "b", "c", "COG2", "x"]]),
         ("f2", [["a", "b", "c", "COG1", "x"]])]).1) ∧
    ((clusterCogs [["a", "b", "c", "COG1", "x"], ["a", "b", "c", "COG2", "x"]]).1.length < 2 →
      "f1" ∈ cogBasedFiltering
        [("f1", [["a", "b", "c", "COG1", "x"], ["a", "b", "c", "COG2", "x"]]),
         ("f2", [["a", "b", "c", "COG1", "x"]])]) :=
  conflict_filtering
    [("f1", [["a", "b", "c", "COG1", "x"], ["a", "b", "c", "COG2", "x"]]),
     ("f2", [["a", "b", "c", "COG1", "x"]])]
    (by decide) "f1" [["a", "b", "c", "COG1", "x"], ["a", "b", "c", "COG2", "x"]] (by decide)

lemma sum_pct_split (tpls : List TrimTuple) (threshold : ℤ) :
    (tpls.map (fun t => t.pct)).sum
      = ((retainedOf tpls threshold).map (fun t => t.pct)).sum
        + ((tpls.filter (fun t => decide (t.pct < (threshold : ℚ)))).map
            (fun t => t.pct)).sum := by
  induction tpls with
  | nil => simp [retainedOf]
  | cons t rest ih =>
    by_cases h : (threshold : ℚ) ≤ t.pct
    · have h1 : decide ((threshold : ℚ) ≤ t.pct) = true := decide_eq_true h
      have h2 : decide (t.pct < (threshold : ℚ)) = false :=
        decide_eq_false (not_lt.mpr h)
      simp only [retainedOf] at ih ⊢
      rw [List.map_cons, List.sum_cons, ih, List.filter_cons, List.filter_cons, h1, h2]
      simp
      ring
    · have h1 : decide ((threshold : ℚ) ≤ t.pct) = false := decide_eq_false h
      have h2 : decide (t.pct < (threshold : ℚ)) = true :=
        decide_eq_true (not_le.mp h)
      simp only [retainedOf] at ih ⊢
      rw [List.map_cons, List.sum_cons, ih, List.filter_cons, List.filter_cons, h1, h2]
      simp
      ring

/-- Claim C7: the retention filter keeps exactly the trim tuples whose
retained percentage reaches the threshold; the report lists one detail row
per tuple, sorted ascending by retained percentage and rendered to two
decimal places; and the mean is taken over all tuples, retained and dropped
together. -/
theorem retention_filter_report (tpls : List TrimTuple) (threshold : ℤ)
    (hne : tpls ≠ [])
    (hnd : (tpls.map (fun t => t.path)).Nodup) :
    (∀ t ∈ tpls,
      (t.path ∈ trimAlignmentsResult tpls threshold ↔ (threshold : ℚ) ≤ t.pct)) ∧
    (∃ s : List TrimTuple, s.Perm tpls ∧ s.Pairwise (fun a b => a.pct ≤ b.pct) ∧
      statsReportRows tpls = s.map renderRow) ∧
    statsMean tpls * (tpls.length : ℚ)
      = ((retainedOf tpls threshold).map (fun t => t.pct)).sum
        + ((tpls.filter (fun t => decide (t.pct < (threshold : ℚ)))).map
            (fun t => t.pct)).sum := by
  refine ⟨?_, ?_, ?_⟩
  · intro t ht
    rw [trimAlignmentsResult, List.mem_mergeSort]
    constructor
    · intro hmem
      obtain ⟨t2, ht2, hpath⟩ := List.mem_map.mp hmem
      rw [retainedOf, List.mem_filter] at ht2
      have heq : t2 = t := nodup_map_eq hnd ht2.1 ht hpath
      rw [← heq]
      exact of_decide_eq_true ht2.2
    · intro hle
      exact List.mem_map.mpr ⟨t, List.mem_filter.mpr ⟨ht, decide_eq_true hle⟩, rfl⟩
  · refine ⟨statsRows tpls, List.mergeSort_perm tpls _, ?_, rfl⟩
    have hs := @List.sorted_mergeSort TrimTuple
      (fun a b : TrimTuple => decide (a.pct ≤ b.pct))
      (fun a b c hab hbc =>
        decide_eq_true (le_trans (of_decide_eq_true hab) (of_decide_eq_true hbc)))
      (fun a b => by rcases le_total a.pct b.pct with h | h <;> simp [h])
      tpls
    exact hs.imp (fun h => of_decide_eq_true h)
  · have hlen0 : ((tpls.length : ℚ)) ≠ 0 := by
      have : tpls.length ≠ 0 := fun hc => hne (List.length_eq_zero.mp hc)
      exact_mod_cast Nat.cast_ne_zero.mpr this
    rw [statsMean, div_mul_cancel₀ _ hlen0, sum_pct_split tpls threshold]

theorem retention_filter_report_witness :
    (∀ t ∈ ([⟨"b", 6, 3, 50⟩, ⟨"a", 9, 9, 100⟩] : List TrimTuple),
      (t.path ∈ trimAlignmentsResult [⟨"b", 6, 3, 50⟩, ⟨"a", 9, 9, 100⟩] 60
        ↔ ((60 : ℤ) : ℚ) ≤ t.pct)) ∧
    (∃ s : List TrimTuple, s.Perm [(⟨"b", 6, 3, 50⟩ : TrimTuple), ⟨"a", 9, 9, 100⟩] ∧
      s.Pairwise (fun a b => a.pct ≤ b.pct) ∧
      statsReportRows [⟨"b", 6, 3, 50⟩, ⟨"a", 9, 9, 100⟩] = s.map renderRow) ∧
    statsMean [(⟨"b", 6, 3, 50⟩ : TrimTuple), ⟨"a", 9, 9, 100⟩]
        * (([(⟨"b", 6, 3, 50⟩ : TrimTuple), ⟨"a", 9, 9, 100⟩].length : ℕ) : ℚ)
      = ((retainedOf [⟨"b", 6, 3, 50⟩, ⟨"a", 9, 9, 100⟩] 60).map (fun t => t.pct)).sum
        + (([(⟨"b", 6, 3, 50⟩ : TrimTuple), ⟨"a", 9, 9, 100⟩].filter
            (fun t => decide (t.pct < ((60 : ℤ) : ℚ)))).map (fun t => t.pct)).sum :=
  retention_filter_report [⟨"b", 6, 3, 50⟩, ⟨"a", 9, 9, 100⟩] 60
    (List.cons_ne_nil _ _) (by decide)

/-- Claim C10: the retained trimmed-alignment path list is sorted, and it is
invariant under any permutation of the trim tuples, so the concatemer input
order depends only on the set of retained alignments and not on task
completion order. -/
theorem retained_paths_deterministic (tpls1 tpls2 : List TrimTuple) (threshold : ℤ)
    (hperm : tpls1.Perm tpls2) :
    trimAlignmentsResult tpls1 threshold = trimAlignmentsResult tpls2 threshold ∧
    (trimAlignmentsResult tpls1 threshold).Pairwise (fun a b : String => a ≤ b) := by
  have hsorted : ∀ l : List TrimTuple,
      (trimAlignmentsResult l threshold).Pairwise (fun a b : String => a ≤ b) := by
    intro l
    have hs := @List.sorted_mergeSort String
      (fun a b : String => decide (a ≤ b))
      (fun a b c hab hbc =>
        decide_eq_true (le_trans (of_decide_eq_true hab) (of_decide_eq_true hbc)))
      (fun a b => by rcases le_total a b with h | h <;> simp [h])
      ((retainedOf l threshold).map (fun t => t.path))
    exact hs.imp (fun h => of_decide_eq_true h)
  refine ⟨?_, hsorted tpls1⟩
  have hp1 : (trimAlignmentsResult tpls1 threshold).Perm
      ((retainedOf tpls1 threshold).map (fun t => t.path)) :=
    List.mergeSort_perm _ _
  have hp2 : (trimAlignmentsResult tpls2 threshold).Perm
      ((retainedOf tpls2 threshold).map (fun t => t.path)) :=
    List.mergeSort_perm _ _
  have hmid : ((retainedOf tpls1 threshold).map (fun t => t.path)).Perm
      ((retainedOf tpls2 threshold).map (fun t => t.path)) :=
    (hperm.filter _).map _
  exact List.eq_of_perm_of_sorted (hp1.trans (hmid.trans hp2.symm))
    (hsorted tpls1) (hsorted tpls2)

theorem retained_paths_deterministic_witness :
    trimAlignmentsResult [(⟨"b", 6, 6, 100⟩ : TrimTuple), ⟨"a", 9, 9, 100⟩] 50
      = trimAlignmentsResult [(⟨"a", 9, 9, 100⟩ : TrimTuple), ⟨"b", 6, 6, 100⟩] 50 ∧
    (trimAlignmentsResult [(⟨"b", 6, 6, 100⟩ : TrimTuple), ⟨"a", 9, 9, 100⟩]
        50).Pairwise (fun a b : String => a ≤ b) :=
  retained_paths_deterministic [⟨"b", 6, 6, 100⟩, ⟨"a", 9, 9, 100⟩]
    [⟨"a", 9, 9, 100⟩, ⟨"b", 6, 6, 100⟩] 50 (List.Perm.swap _ _ _)

end FilterOrthologs
